import Mathlib

/-!
A verification development for the pynt number-theory library
(`src/pynt/base.py` and `src/pynt/sums.py`).

The Python code is shallowly embedded below.  Python `int` is modelled as
`Int`, or as `Nat` at the points where the code manipulates non-negative
values only; a raised `ValueError` is modelled as `Except.error` (or as
`Option.none` for the error that `factors` propagates out of tuple
unpacking).  Every definition mirrors the corresponding Python function;
comments note the few places where the embedding carries an extra guard
whose truth on all reachable inputs is established by the theorems.
-/

namespace pynt

/-- Euclidean loop of `gcd`:
`while num2 != 0: num1, num2 = num2, num1 % num2; return num1`.
The loop only runs after both arguments have been made non-negative, and
Python's `%` agrees with `Nat.mod` on non-negative operands, so the loop is
modelled on `Nat`. -/
def gcdLoop (num1 num2 : Nat) : Nat :=
  if num2 = 0 then num1 else gcdLoop num2 (num1 % num2)
termination_by num2
decreasing_by exact Nat.mod_lt _ (by omega)

/-- `gcd` from `base.py`.  Note the order of operations in the source: the
two zero tests come before the sign normalization (`if num1 < 0: num1 = -num1`
etc.), so a zero argument returns the other argument with its sign intact. -/
def gcd (num1 num2 : Int) : Int :=
  if num1 = 0 then num2
  else if num2 = 0 then num1
  else ((gcdLoop num1.natAbs num2.natAbs : Nat) : Int)

/-- The mod-30 wheel increments `diffs = [6, 4, 2, 4, 2, 4, 6, 2]` from
`smallest_prime_divisor`. -/
def diffs : List Nat := [6, 4, 2, 4, 2, 4, 6, 2]

/-- Trial-division loop of `smallest_prime_divisor`:
`while cand <= bound and cand*cand <= num: ...`.
The source indexes `diffs[i]` with `i` always kept in `[0, 8)` by the update
`i = (i + 1) % 8`; the embedding reads `diffs.getD (i % 8) 0`, which agrees
with the source on those reachable indices. -/
def wheelLoop (num bound cand i : Nat) : Nat :=
  if h : cand ≤ bound ∧ cand * cand ≤ num then
    if num % cand = 0 then cand
    else wheelLoop num bound (cand + diffs.getD (i % 8) 0) ((i + 1) % 8)
  else num
termination_by bound + 1 - cand
decreasing_by
  have hd : ∀ j, j < 8 → 2 ≤ diffs.getD j 0 := by decide
  have := hd (i % 8) (Nat.mod_lt _ (by omega))
  omega

/-- Body of `smallest_prime_divisor` after the `num < 1` validation, with the
default `bound = num` already resolved: the `num == 1` early return, the fixed
small-prime checks `for prime in [2, 3, 5]`, then the wheel loop starting at
candidate 7 with `i = 1`. -/
def spdCore (num bound : Nat) : Nat :=
  if num = 1 then num
  else if num % 2 = 0 then 2
  else if num % 3 = 0 then 3
  else if num % 5 = 0 then 5
  else wheelLoop num bound 7 1

/-- `smallest_prime_divisor` from `base.py`.  `Except.error ()` models the
`ValueError` raised when `num < 1`; `bound = none` models the omitted optional
argument, which the source replaces by `num`.  For `num ≥ 1` the values fed to
`spdCore` are non-negative, so `Int.toNat` is faithful (a negative explicit
`bound` behaves like `0`: in both the source and the model the wheel loop
condition fails immediately). -/
def smallest_prime_divisor (num : Int) (bound : Option Int) : Except Unit Int :=
  if num < 1 then Except.error ()
  else Except.ok ((spdCore num.toNat ((bound.getD num).toNat) : Nat) : Int)

/-- Inner loop of `factor`:
`exp' = 0; while num % prime == 0: exp' += 1; num = num // prime`, returning
`(exp', num)`.  The guard carries `2 ≤ p ∧ 0 < num` in addition to the
source's `num % p = 0`: both extra conjuncts hold whenever `factor` runs this
loop (`p` is the value returned by `spdCore`, and `num` stays positive), and
they make termination evident.  (For `p ≤ 1` or `num = 0` the Python loop
would not terminate.) -/
def divideOut (p num : Nat) : Nat × Nat :=
  if h : 2 ≤ p ∧ 0 < num ∧ num % p = 0 then
    let r := divideOut p (num / p)
    (r.1 + 1, r.2)
  else (0, num)
termination_by num
decreasing_by exact Nat.div_lt_self h.2.1 h.1

/-- Outer loop of `factor`: `while num != 1`, extracting
`prime = smallest_prime_divisor(num)` (call with the default bound, which
resolves to `num`; here `num ≥ 2` so no `ValueError` is possible and the call
is `spdCore num num`), dividing out its full power and recording
`(prime, exp)`.  The guard is written `2 ≤ num`, which on the reachable
domain `num ≥ 1` is exactly `num != 1`.  The inner guard `d.2 < num` records
the strict decrease that makes the loop terminate; `factorLoop_spec` below
shows it always holds, so the `else []` branch is never taken. -/
def factorLoop (num : Nat) : List (Nat × Nat) :=
  if h1 : 2 ≤ num then
    let p := spdCore num num
    let d := divideOut p (num / p)
    if h2 : d.2 < num then (p, d.1 + 1) :: factorLoop d.2
    else []
  else []
termination_by num

/-- `factor` from `base.py`: the `num in (-1, 0, 1)` early return, the sign
normalization `if num < 0: num = -num` (i.e. `Int.natAbs`), then the
extraction loop. -/
def factor (num : Int) : List (Nat × Nat) :=
  if num = -1 ∨ num = 0 ∨ num = 1 then []
  else factorLoop num.natAbs

/-- Model of the numpy slice assignment `sieve[start::step] = False`: every
index `start, start + step, start + 2*step, ...` inside the list is cleared. -/
def markFalse (sieve : List Bool) (start step : Nat) : List Bool :=
  sieve.enum.map fun p => if start ≤ p.1 ∧ (p.1 - start) % step = 0 then false else p.2

/-- The initial bitset of `primes`:
`numpy.ones(limit // 3 + (limit % 6 == 2), dtype=bool)`. -/
def sieveInit (limit : Nat) : List Bool :=
  List.replicate (limit / 3 + (if limit % 6 = 2 then 1 else 0)) true

/-- The marking loop of `primes`:
`for i in range(1, int(limit ** 0.5) // 3 + 1)`.  `int(limit ** 0.5)` is
modelled as `Nat.sqrt limit`, which agrees with Python's value at every input
this development evaluates.  `sieve[i]` is read as `getD i false` (the source
never indexes out of range on the inputs considered here). -/
def sieveLoop (limit : Nat) (sieve : List Bool) : List Bool :=
  (List.range' 1 (Nat.sqrt limit / 3)).foldl
    (fun s i =>
      if s.getD i false then
        let k := (3 * i + 1) ||| 1
        markFalse (markFalse s (k * k / 3) (2 * k))
          (k * (k - 2 * (i &&& 1) + 4) / 3) (2 * k)
      else s) sieve

/-- Indices of the surviving (still `true`) sieve entries, in ascending
order: `numpy.nonzero(sieve)[0]`. -/
def trueIndices (sieve : List Bool) : List Nat :=
  (sieve.enum.filter fun p => p.2).map fun p => p.1

/-- `primes` from `base.py` (the spec's `prime_sieve`): the final
reconstruction `numpy.r_[2, 3, ((3 * nonzero(sieve)[0][1:] + 1) | 1)]`. -/
def primes (limit : Nat) : List Nat :=
  2 :: 3 :: ((trueIndices (sieveLoop limit (sieveInit limit))).drop 1).map
    (fun idx => (3 * idx + 1) ||| 1)

/-- `itertools.product(*lists)`: the Cartesian product of a list of lists,
leftmost coordinate varying slowest. -/
def cartesianProduct : List (List Nat) → List (List Nat)
  | [] => [[]]
  | choices :: rest =>
    choices.flatMap fun x => (cartesianProduct rest).map fun tail => x :: tail

/-- `factors` from `base.py` (the spec's `enumerate_divisors`).
`primes_, exps = zip(*factorization)` raises a `ValueError` (unpacking an
empty sequence) exactly when `factorization` is empty, which is modelled by
`none`.  Otherwise `zip(*l)` on a non-empty list of pairs yields the list of
first and the list of second components.  The per-choice value
`val = 1; for prime, exp in zip(primes_, exp_choice): val *= prime ** exp`
is the product of the zipped prime powers, and Python's `sorted` returns the
ascending reordering, modelled by insertion sort (on `Nat` every correct
ascending sort produces the same output). -/
def factors (num : Int) : Option (List Nat) :=
  match factor num with
  | [] => none
  | fz =>
    let primes_ := fz.map Prod.fst
    let exps := fz.map Prod.snd
    let expChoices := cartesianProduct (exps.map fun e => List.range (e + 1))
    some (List.insertionSort (· ≤ ·)
      (expChoices.map fun choice => (List.zipWith (fun p c => p ^ c) primes_ choice).prod))

/-- `convolution_coeff` from `sums.py`:
`ret = 0; for d in factors(val): ret += fun1(d) * fun2(val // d)`.
The divisors produced by `factors` are positive and `val // d` is exact on
them, so the quotient is modelled as `val.natAbs / d`; the arithmetic
functions take the (positive) divisor as a `Nat` and return `Int`.  The
`ValueError` escaping from `factors` propagates as `none`. -/
def convolution_coeff (val : Int) (fun1 fun2 : Nat → Int) : Option Int :=
  (factors val).map fun divisorList =>
    (divisorList.map fun d => fun1 d * fun2 (val.natAbs / d)).sum

/-- Accumulation loop of `compute_partial_sums`:
`for elem in seq: partial += elem; ret_list.append(partial)`. -/
def partialSumsAux (acc : Int) : List Int → List Int
  | [] => []
  | elem :: rest => (acc + elem) :: partialSumsAux (acc + elem) rest

/-- `compute_partial_sums` from `sums.py`; the running sum starts at `0`. -/
def compute_partial_sums (seq : List Int) : List Int :=
  partialSumsAux 0 seq

/-- Product of the recorded prime powers of a factorization, the quantity
`factor` reconstructs (proof-side abbreviation). -/
def prodPE (l : List (Nat × Nat)) : Nat :=
  (l.map fun pe => pe.1 ^ pe.2).prod

/-- The unsorted divisor candidates built by `factors` from a factorization
list (proof-side abbreviation of the corresponding expression in `factors`). -/
def allVals (l : List (Nat × Nat)) : List Nat :=
  (cartesianProduct ((l.map Prod.snd).map fun e => List.range (e + 1))).map
    fun choice => (List.zipWith (fun p c => p ^ c) (l.map Prod.fst) choice).prod

/-- The wheel residues modulo 30 visited by `wheelLoop`, indexed in step with
`diffs` (proof-side). -/
def wheelRes : List Nat := [1, 7, 11, 13, 17, 19, 23, 29]

theorem gcdLoop_eq_gcd (a b : Nat) : gcdLoop a b = Nat.gcd a b := by
  induction b using Nat.strong_induction_on generalizing a with
  | _ b ih =>
    rw [gcdLoop]
    by_cases h : b = 0
    · simp [h]
    · rw [if_neg h, ih _ (Nat.mod_lt _ (by omega)) b]
      rw [Nat.gcd_comm b (a % b), ← Nat.gcd_rec, Nat.gcd_comm]

/-- C5: the claim that `gcd` is always non-negative with `gcd 0 x = |x|` fails
on the code: the zero tests precede the sign normalization, so
`gcd 0 (-5) = -5`, a negative result (the greatest common divisor of `0` and
`-5` is `5`).  This theorem evaluates the code at the failing input. -/
theorem gcd_zero_neg_bug : gcd 0 (-5) = -5 ∧ gcd 0 (-5) < 0 := by
  constructor <;> decide

/-- C10: `gcd` is commutative on all integer inputs, including the
zero/negative corner cases. -/
theorem gcd_commutative (a b : Int) : gcd a b = gcd b a := by
  unfold gcd
  by_cases ha : a = 0 <;> by_cases hb : b = 0 <;>
    simp [ha, hb, gcdLoop_eq_gcd, Nat.gcd_comm]

theorem partialSumsAux_length (acc : Int) (seq : List Int) :
    (partialSumsAux acc seq).length = seq.length := by
  induction seq generalizing acc <;> simp [partialSumsAux, *]

theorem partialSumsAux_getD (acc : Int) (seq : List Int) (i : Nat)
    (h : i < seq.length) :
    (partialSumsAux acc seq).getD i 0 = acc + (seq.take (i + 1)).sum := by
  induction seq generalizing acc i with
  | nil => simp at h
  | cons e rest ih =>
    cases i with
    | zero => simp [partialSumsAux]
    | succ i =>
      have hlen : i < rest.length := by simpa using h
      simp only [partialSumsAux, List.getD_cons_succ, List.take_succ_cons,
        List.sum_cons]
      rw [ih (acc + e) i hlen]
      ring

/-- C9: `compute_partial_sums` preserves the length, its `i`-th entry is the
sum of the first `i + 1` input entries, its first entry is the first input
entry, and the empty input yields the empty output. -/
theorem compute_partial_sums_correct (seq : List Int) :
    (compute_partial_sums seq).length = seq.length ∧
    (∀ i, i < seq.length →
      (compute_partial_sums seq).getD i 0 = (seq.take (i + 1)).sum) ∧
    (∀ x rest, seq = x :: rest → (compute_partial_sums seq).getD 0 0 = x) ∧
    compute_partial_sums ([] : List Int) = [] := by
  refine ⟨partialSumsAux_length 0 seq, fun i h => ?_, fun x rest hx => ?_, rfl⟩
  · rw [compute_partial_sums, partialSumsAux_getD 0 seq i h, zero_add]
  · subst hx
    simp [compute_partial_sums, partialSumsAux]

/-- C9 witness: the theorem instantiated at the spec's example
`compute_partial_sums [1, 1, 1, 1]`, entry `2`. -/
theorem compute_partial_sums_correct_witness :
    2 < ([1, 1, 1, 1] : List Int).length ∧
    (compute_partial_sums [1, 1, 1, 1]).getD 2 0 =
      (([1, 1, 1, 1] : List Int).take 3).sum :=
  ⟨by decide, (compute_partial_sums_correct [1, 1, 1, 1]).2.1 2 (by decide)⟩

/-- C2: the claim that `primes limit` lists exactly the primes below `limit`
fails at small limits: the reconstruction unconditionally prefixes `2` and
`3`, so `primes 2 = [2, 3]` (the claim requires `[]`) and
`primes 3 = [2, 3]` (the claim requires `[2]`), contradicting the function's
own docstring.  This theorem evaluates the code at those inputs. -/
theorem primes_low_limit_bug : primes 2 = [2, 3] ∧ primes 3 = [2, 3] := by
  have h2 : Nat.sqrt 2 = 1 := by
    have ha : 1 ≤ Nat.sqrt 2 := Nat.le_sqrt.2 (by norm_num)
    have hb : Nat.sqrt 2 < 2 := Nat.sqrt_lt.2 (by norm_num)
    omega
  have h3 : Nat.sqrt 3 = 1 := by
    have ha : 1 ≤ Nat.sqrt 3 := Nat.le_sqrt.2 (by norm_num)
    have hb : Nat.sqrt 3 < 2 := Nat.sqrt_lt.2 (by norm_num)
    omega
  constructor
  · unfold primes sieveLoop
    rw [h2]
    rfl
  · unfold primes sieveLoop
    rw [h3]
    rfl

/-- C4: the claim that `factors` returns `[1]` on the degenerate inputs
`{-1, 0, 1}` without an unpacking error fails on the code:
`primes_, exps = zip(*factorization)` raises `ValueError` on the empty
factorization (modelled by `none`).  This theorem evaluates the code at those
inputs. -/
theorem factors_degenerate_raises :
    factors 1 = none ∧ factors 0 = none ∧ factors (-1) = none := by
  refine ⟨rfl, rfl, rfl⟩

theorem diffs_bounds : ∀ j, j < 8 → 2 ≤ diffs.getD j 0 ∧ diffs.getD j 0 ≤ 6 := by
  decide

theorem wheelRes_step : ∀ j, j < 8 →
    (wheelRes.getD j 0 + diffs.getD j 0) % 30 = wheelRes.getD ((j + 1) % 8) 0 := by
  decide

theorem wheelRes_gap : ∀ j, j < 8 → ∀ off, off < 6 → 0 < off → off < diffs.getD j 0 →
    ((wheelRes.getD j 0 + off) % 30) % 2 = 0 ∨
    ((wheelRes.getD j 0 + off) % 30) % 3 = 0 ∨
    ((wheelRes.getD j 0 + off) % 30) % 5 = 0 := by
  decide

/-- The wheel loop finds the least prime factor when it is at most `bound`,
and otherwise returns `num`, provided the loop state `(cand, i)` satisfies the
wheel invariants and every candidate below `cand` has already been excluded. -/
theorem wheelLoop_eq (num bound : Nat) (hnum : 2 ≤ num)
    (hn2 : ¬ 2 ∣ num) (hn3 : ¬ 3 ∣ num) (hn5 : ¬ 5 ∣ num) :
    ∀ (fuel cand i : Nat), bound + 1 - cand ≤ fuel → i < 8 →
      cand % 30 = wheelRes.getD i 0 → 7 ≤ cand →
      (∀ d, 2 ≤ d → d < cand → ¬ d ∣ num) →
      wheelLoop num bound cand i =
        if num.minFac ≤ bound then num.minFac else num := by
  have hmfd : num.minFac ∣ num := Nat.minFac_dvd num
  have hmf2 : 2 ≤ num.minFac := (Nat.minFac_prime (by omega : num ≠ 1)).two_le
  intro fuel
  induction fuel with
  | zero =>
    intro cand i hf hi hress hc7 hinv
    have hcb : bound < cand := by omega
    have hcle : cand ≤ num.minFac := by
      by_contra hlt
      exact hinv num.minFac hmf2 (by omega) hmfd
    rw [wheelLoop, dif_neg (fun hco => absurd hco.1 (by omega)), if_neg (by omega)]
  | succ fuel ih =>
    intro cand i hf hi hress hc7 hinv
    have hcle : cand ≤ num.minFac := by
      by_contra hlt
      exact hinv num.minFac hmf2 (by omega) hmfd
    rw [wheelLoop]
    by_cases hcond : cand ≤ bound ∧ cand * cand ≤ num
    · rw [dif_pos hcond]
      by_cases hdiv : num % cand = 0
      · rw [if_pos hdiv]
        have hcd : cand ∣ num := Nat.dvd_of_mod_eq_zero hdiv
        have hle : num.minFac ≤ cand := Nat.minFac_le_of_dvd (by omega) hcd
        have heq : cand = num.minFac := by omega
        rw [if_pos (by omega : num.minFac ≤ bound)]
        exact heq
      · rw [if_neg hdiv]
        have hDb := diffs_bounds i hi
        rw [Nat.mod_eq_of_lt hi]
        apply ih (cand + diffs.getD i 0) ((i + 1) % 8) (by omega)
          (Nat.mod_lt _ (by omega))
        · rw [Nat.add_mod, hress,
            Nat.mod_eq_of_lt (show diffs.getD i 0 < 30 by omega)]
          exact wheelRes_step i hi
        · omega
        · intro d hd2 hdlt hddvd
          rcases Nat.lt_trichotomy d cand with hlt | heq | hgt
          · exact hinv d hd2 hlt hddvd
          · subst heq
            obtain ⟨c, rfl⟩ := hddvd
            exact hdiv (Nat.mul_mod_right _ _)
          · have hoff1 : 0 < d - cand := by omega
            have hoffD : d - cand < diffs.getD i 0 := by omega
            have hd30 : d % 30 = (wheelRes.getD i 0 + (d - cand)) % 30 := by
              have hsplit : d = cand + (d - cand) := by omega
              conv_lhs => rw [hsplit]
              rw [Nat.add_mod, hress,
                Nat.mod_eq_of_lt (show d - cand < 30 by omega)]
            have hmodq : ∀ q : Nat, q ∣ 30 →
                d % q = ((wheelRes.getD i 0 + (d - cand)) % 30) % q := by
              intro q hq
              rw [← Nat.mod_mod_of_dvd d hq, hd30]
            rcases wheelRes_gap i hi (d - cand) (by omega) hoff1 hoffD with hq | hq | hq
            · have : d % 2 = 0 := by rw [hmodq 2 (by norm_num)]; exact hq
              exact hn2 (dvd_trans (Nat.dvd_of_mod_eq_zero this) hddvd)
            · have : d % 3 = 0 := by rw [hmodq 3 (by norm_num)]; exact hq
              exact hn3 (dvd_trans (Nat.dvd_of_mod_eq_zero this) hddvd)
            · have : d % 5 = 0 := by rw [hmodq 5 (by norm_num)]; exact hq
              exact hn5 (dvd_trans (Nat.dvd_of_mod_eq_zero this) hddvd)
    · rw [dif_neg hcond]
      by_cases hcb : cand ≤ bound
      · have hsq : num < cand * cand := by
          rcases Nat.lt_or_ge num (cand * cand) with h | h
          · exact h
          · exact absurd ⟨hcb, h⟩ hcond
        have hprime : num.Prime := by
          by_contra hnp
          have hs := Nat.minFac_sq_le_self (by omega : 0 < num) hnp
          rw [pow_two] at hs
          have : cand * cand ≤ num.minFac * num.minFac := Nat.mul_le_mul hcle hcle
          omega
        have hmfe : num.minFac = num := by
          rcases hprime.eq_one_or_self_of_dvd _ hmfd with h1 | h1
          · omega
          · exact h1
        rw [hmfe, ite_self]
      · rw [if_neg (by omega)]

/-- `spdCore` (the normal path of `smallest_prime_divisor`) returns the least
prime factor whenever that factor is `≤ max 5 bound` (the fixed primes 2, 3, 5
are tested regardless of the bound), and `num` itself otherwise. -/
theorem spdCore_eq (num bound : Nat) (h : 2 ≤ num) :
    spdCore num bound = if num.minFac ≤ max 5 bound then num.minFac else num := by
  have hne1 : num ≠ 1 := by omega
  have hmfp := Nat.minFac_prime hne1
  have hmfd := Nat.minFac_dvd num
  have hmf2 := hmfp.two_le
  have h5max : (5 : Nat) ≤ max 5 bound := le_max_left 5 bound
  unfold spdCore
  rw [if_neg hne1]
  by_cases h2 : num % 2 = 0
  · rw [if_pos h2]
    have hle : num.minFac ≤ 2 :=
      Nat.minFac_le_of_dvd (by omega) (Nat.dvd_of_mod_eq_zero h2)
    have he : num.minFac = 2 := by omega
    rw [he, if_pos (by omega)]
  · rw [if_neg h2]
    have hnd2 : ¬ (2 : Nat) ∣ num := fun hd => h2 (by omega)
    have hne2 : num.minFac ≠ 2 := fun he => hnd2 (he ▸ hmfd)
    by_cases h3 : num % 3 = 0
    · rw [if_pos h3]
      have hle : num.minFac ≤ 3 :=
        Nat.minFac_le_of_dvd (by omega) (Nat.dvd_of_mod_eq_zero h3)
      have he : num.minFac = 3 := by omega
      rw [he, if_pos (by omega)]
    · rw [if_neg h3]
      have hnd3 : ¬ (3 : Nat) ∣ num := fun hd => h3 (by omega)
      have hne3 : num.minFac ≠ 3 := fun he => hnd3 (he ▸ hmfd)
      have hne4 : num.minFac ≠ 4 := fun he => absurd (he ▸ hmfp) (by decide)
      by_cases h5 : num % 5 = 0
      · rw [if_pos h5]
        have hle : num.minFac ≤ 5 :=
          Nat.minFac_le_of_dvd (by omega) (Nat.dvd_of_mod_eq_zero h5)
        have he : num.minFac = 5 := by omega
        rw [he, if_pos (by omega)]
      · rw [if_neg h5]
        have hnd5 : ¬ (5 : Nat) ∣ num := fun hd => h5 (by omega)
        have hne5 : num.minFac ≠ 5 := fun he => hnd5 (he ▸ hmfd)
        have hne6 : num.minFac ≠ 6 := fun he => absurd (he ▸ hmfp) (by decide)
        have hmf7 : 7 ≤ num.minFac := by omega
        have hinv0 : ∀ d, 2 ≤ d → d < 7 → ¬ d ∣ num := by
          intro d hd2 hd7 hdd
          interval_cases d
          · exact hnd2 hdd
          · exact hnd3 hdd
          · exact hnd2 (dvd_trans (by norm_num) hdd)
          · exact hnd5 hdd
          · exact hnd2 (dvd_trans (by norm_num) hdd)
        rw [wheelLoop_eq num bound h hnd2 hnd3 hnd5 (bound + 1) 7 1 (by omega)
          (by omega) (by decide) (le_refl 7) hinv0]
        by_cases hb : num.minFac ≤ bound
        · rw [if_pos hb, if_pos (le_trans hb (le_max_right 5 bound))]
        · rw [if_neg hb, if_neg (fun hc => by
            rcases le_max_iff.1 hc with hx | hx
            · omega
            · exact hb hx)]

/-- C8: `smallest_prime_divisor` raises `ValueError` exactly when `num < 1`,
and for every `num ≥ 1` (and any optional bound) it returns normally. -/
theorem smallest_prime_divisor_error_iff (num : Int) (bound : Option Int) :
    (smallest_prime_divisor num bound = Except.error () ↔ num < 1) ∧
    (1 ≤ num → ∃ r, smallest_prime_divisor num bound = Except.ok r) := by
  unfold smallest_prime_divisor
  by_cases hn : num < 1
  · rw [if_pos hn]
    exact ⟨⟨fun _ => hn, fun _ => rfl⟩, fun h => absurd hn (by omega)⟩
  · rw [if_neg hn]
    exact ⟨⟨fun h => by simp at h, fun h => absurd h hn⟩, fun _ => ⟨_, rfl⟩⟩

/-- C8 witness: the theorem instantiated at `num = 15` with the default
bound. -/
theorem smallest_prime_divisor_error_iff_witness :
    1 ≤ (15 : Int) ∧ ∃ r, smallest_prime_divisor 15 none = Except.ok r :=
  ⟨by decide, (smallest_prime_divisor_error_iff 15 none).2 (by decide)⟩

/-- C3 counterexample: at `num = 4`, `bound = 1` no prime divisor of `4` is
`≤ 1`, so the claim requires the result `4` (num unchanged); the code returns
`2` because the fixed primes 2, 3, 5 are tested before the bound is
consulted. -/
theorem smallest_prime_divisor_bound_counterexample :
    smallest_prime_divisor 4 (some 1) = Except.ok 2 ∧
      (Except.ok (2 : Int) : Except Unit Int) ≠ Except.ok (4 : Int) := by
  exact ⟨rfl, by simp⟩

/-- C3 amended: for `num ≥ 1` and `bound ≥ 0`, `smallest_prime_divisor`
returns `1` when `num = 1`; otherwise it returns the smallest prime dividing
`num` provided that prime is `≤ bound` or is one of the small primes 2, 3, 5
(which are tested regardless of the bound), and returns `num` unchanged when
no such divisor is found. -/
theorem smallest_prime_divisor_amended (num b : Int) (h1 : 1 ≤ num)
    (hb : 0 ≤ b) :
    smallest_prime_divisor num (some b) = Except.ok
      (if num = 1 then 1
       else if (num.toNat.minFac : Int) ≤ max 5 b then (num.toNat.minFac : Int)
       else num) := by
  unfold smallest_prime_divisor
  rw [if_neg (by omega)]
  by_cases hone : num = 1
  · subst hone
    rfl
  · rw [if_neg hone, Option.getD_some,
      spdCore_eq num.toNat b.toNat (by omega)]
    by_cases hc : num.toNat.minFac ≤ max 5 b.toNat
    · rw [if_pos hc, if_pos (by omega)]
    · rw [if_neg hc, if_neg (by omega), Int.toNat_of_nonneg (by omega)]

/-- C3 amended witness: the theorem instantiated at `num = 49`, `bound = 10`
(the wheel finds the factor 7), with the least-prime-factor value evaluated. -/
theorem smallest_prime_divisor_amended_witness :
    1 ≤ (49 : Int) ∧ 0 ≤ (10 : Int) ∧
      smallest_prime_divisor 49 (some 10) = Except.ok 7 := by
  refine ⟨by decide, by decide, ?_⟩
  rw [smallest_prime_divisor_amended 49 10 (by decide) (by decide)]
  have h49 : ((49 : Int).toNat).minFac = 7 := by
    have hp := Nat.minFac_prime (by norm_num : (49 : Nat) ≠ 1)
    have hd : Nat.minFac 49 ∣ 7 ^ 2 := by
      have := Nat.minFac_dvd 49
      norm_num at this ⊢
    exact (Nat.prime_dvd_prime_iff_eq hp (by norm_num)).1 (hp.dvd_of_dvd_pow hd)
  rw [if_neg (by decide : ¬ (49 : Int) = 1), h49]
  norm_num

/-- `divideOut p num` (for `p ≥ 2`, `num ≥ 1`) splits `num` into
`p ^ e * rem` with `p ∤ rem` and `rem ≥ 1`, never increasing `num`. -/
theorem divideOut_spec (p : Nat) : ∀ num, 2 ≤ p → 0 < num →
    p ^ (divideOut p num).1 * (divideOut p num).2 = num ∧
    ¬ p ∣ (divideOut p num).2 ∧
    0 < (divideOut p num).2 ∧ (divideOut p num).2 ≤ num := by
  intro num
  induction num using Nat.strong_induction_on with
  | _ num ih =>
    intro hp hn
    rw [divideOut]
    by_cases h : 2 ≤ p ∧ 0 < num ∧ num % p = 0
    · rw [dif_pos h]
      have hpdvd : p ∣ num := Nat.dvd_of_mod_eq_zero h.2.2
      have hlt : num / p < num := Nat.div_lt_self hn (by omega)
      have hdp : 0 < num / p := Nat.div_pos (Nat.le_of_dvd hn hpdvd) (by omega)
      obtain ⟨he, hnd, hpos, hle⟩ := ih (num / p) hlt hp hdp
      refine ⟨?_, hnd, hpos, by
        show (divideOut p (num / p)).2 ≤ num
        omega⟩
      calc p ^ ((divideOut p (num / p)).1 + 1) * (divideOut p (num / p)).2
          = p * (p ^ (divideOut p (num / p)).1 * (divideOut p (num / p)).2) := by
            ring
        _ = p * (num / p) := by rw [he]
        _ = num := Nat.mul_div_cancel' hpdvd
    · rw [dif_neg h]
      have hmod : num % p ≠ 0 := fun hm => h ⟨hp, hn, hm⟩
      have hnd : ¬ p ∣ num := by
        intro hd
        obtain ⟨c, rfl⟩ := hd
        exact hmod (Nat.mul_mod_right p c)
      exact ⟨by ring, hnd, hn, le_refl num⟩

/-- One unfolding of the extraction loop: for `num ≥ 2` the next prime is
`num.minFac`, its full power is divided out, and the loop continues on the
remainder (in particular the inner termination guard always holds). -/
theorem factorLoop_cons (num : Nat) (h : 2 ≤ num) :
    factorLoop num =
      (num.minFac, (divideOut num.minFac (num / num.minFac)).1 + 1) ::
        factorLoop (divideOut num.minFac (num / num.minFac)).2 := by
  have hsp : spdCore num num = num.minFac := by
    rw [spdCore_eq num num h,
      if_pos (le_trans (Nat.minFac_le (by omega)) (le_max_right 5 num))]
  have hp2 : 2 ≤ num.minFac := (Nat.minFac_prime (show num ≠ 1 by omega)).two_le
  have hpd : num.minFac ∣ num := Nat.minFac_dvd num
  have hdp : 0 < num / num.minFac :=
    Nat.div_pos (Nat.le_of_dvd (by omega) hpd) (by omega)
  obtain ⟨_, _, _, hle⟩ := divideOut_spec num.minFac (num / num.minFac) hp2 hdp
  have hlt : (divideOut num.minFac (num / num.minFac)).2 < num :=
    lt_of_le_of_lt hle (Nat.div_lt_self (by omega) (by omega))
  rw [factorLoop, dif_pos h, hsp, dif_pos hlt]

/-- Full correctness of the extraction loop: every recorded pair is a prime
with positive exponent dividing the input, the primes are strictly
increasing, and the prime powers multiply back to the input. -/
theorem factorLoop_spec : ∀ num, 0 < num →
    (∀ pe ∈ factorLoop num, pe.1.Prime ∧ 0 < pe.2 ∧ pe.1 ∣ num) ∧
    ((factorLoop num).map Prod.fst).Sorted (· < ·) ∧
    ((factorLoop num).map fun pe => pe.1 ^ pe.2).prod = num := by
  intro num
  induction num using Nat.strong_induction_on with
  | _ num ih =>
    intro hn
    by_cases h : 2 ≤ num
    · have hmfp := Nat.minFac_prime (show num ≠ 1 by omega)
      have hp2 : 2 ≤ num.minFac := hmfp.two_le
      have hpd : num.minFac ∣ num := Nat.minFac_dvd num
      have hdp : 0 < num / num.minFac :=
        Nat.div_pos (Nat.le_of_dvd (by omega) hpd) (by omega)
      obtain ⟨he, hnd, hpos, hle⟩ :=
        divideOut_spec num.minFac (num / num.minFac) hp2 hdp
      have hremlt : (divideOut num.minFac (num / num.minFac)).2 < num :=
        lt_of_le_of_lt hle (Nat.div_lt_self (by omega) (by omega))
      have hnum : num.minFac ^ ((divideOut num.minFac (num / num.minFac)).1 + 1) *
          (divideOut num.minFac (num / num.minFac)).2 = num := by
        calc num.minFac ^ ((divideOut num.minFac (num / num.minFac)).1 + 1) *
            (divideOut num.minFac (num / num.minFac)).2
            = num.minFac * (num.minFac ^ (divideOut num.minFac (num / num.minFac)).1 *
              (divideOut num.minFac (num / num.minFac)).2) := by ring
          _ = num.minFac * (num / num.minFac) := by rw [he]
          _ = num := Nat.mul_div_cancel' hpd
      have hremdvd : (divideOut num.minFac (num / num.minFac)).2 ∣ num :=
        ⟨num.minFac ^ ((divideOut num.minFac (num / num.minFac)).1 + 1), by
          conv_lhs => rw [← hnum]
          ring⟩
      obtain ⟨ihP1, ihP2, ihP3⟩ := ih _ hremlt hpos
      rw [factorLoop_cons num h]
      refine ⟨?_, ?_, ?_⟩
      · intro pe hpe
        rcases List.mem_cons.1 hpe with hh | ht
        · rw [hh]
          exact ⟨hmfp, by omega, hpd⟩
        · obtain ⟨hq, hq2, hq3⟩ := ihP1 pe ht
          exact ⟨hq, hq2, dvd_trans hq3 hremdvd⟩
      · rw [List.map_cons, List.sorted_cons]
        refine ⟨?_, ihP2⟩
        intro q hq
        obtain ⟨pe, hpe, rfl⟩ := List.mem_map.1 hq
        obtain ⟨hqp, _, hqd⟩ := ihP1 pe hpe
        have h1 : num.minFac ≤ pe.1 :=
          Nat.minFac_le_of_dvd hqp.two_le (dvd_trans hqd hremdvd)
        have h2 : pe.1 ≠ num.minFac := fun hx => hnd (hx ▸ hqd)
        omega
      · rw [List.map_cons, List.prod_cons, ihP3]
        exact hnum
    · have h1 : num = 1 := by omega
      subst h1
      rw [factorLoop, dif_neg (by omega)]
      simp

/-- The properties of `factor` on inputs of absolute value at least 2
(shared by the divisor-enumeration and convolution developments). -/
theorem factor_props (n : Int) (h : 1 < n.natAbs) :
    (∀ pe ∈ factor n, pe.1.Prime ∧ 0 < pe.2 ∧ pe.1 ∣ n.natAbs) ∧
    ((factor n).map Prod.fst).Sorted (· < ·) ∧
    ((factor n).map fun pe => pe.1 ^ pe.2).prod = n.natAbs := by
  have hne : ¬(n = -1 ∨ n = 0 ∨ n = 1) := by
    rintro (rfl | rfl | rfl) <;> simp at h
  unfold factor
  rw [if_neg hne]
  exact factorLoop_spec n.natAbs (by omega)

/-- C1: for `|n| > 1`, `factor n` is a list of (prime, exponent) pairs with
strictly increasing primes and positive exponents whose prime powers multiply
to `|n|`; for `n ∈ {-1, 0, 1}` it returns the empty list. -/
theorem factor_correct (n : Int) :
    (1 < n.natAbs →
      (∀ pe ∈ factor n, pe.1.Prime ∧ 1 ≤ pe.2) ∧
      ((factor n).map Prod.fst).Sorted (· < ·) ∧
      ((factor n).map fun pe => pe.1 ^ pe.2).prod = n.natAbs) ∧
    (n.natAbs ≤ 1 → factor n = []) := by
  constructor
  · intro h
    obtain ⟨hP1, hP2, hP3⟩ := factor_props n h
    exact ⟨fun pe hpe => ⟨(hP1 pe hpe).1, (hP1 pe hpe).2.1⟩, hP2, hP3⟩
  · intro h
    have hx : n = -1 ∨ n = 0 ∨ n = 1 := by omega
    unfold factor
    rw [if_pos hx]

/-- C1 witness: the theorem instantiated at `n = -12`. -/
theorem factor_correct_witness :
    1 < ((-12 : Int)).natAbs ∧
      ((∀ pe ∈ factor (-12), pe.1.Prime ∧ 1 ≤ pe.2) ∧
       ((factor (-12)).map Prod.fst).Sorted (· < ·) ∧
       ((factor (-12)).map fun pe => pe.1 ^ pe.2).prod = ((-12 : Int)).natAbs) :=
  ⟨by decide, (factor_correct (-12)).1 (by decide)⟩

theorem allVals_nil : allVals [] = [1] := rfl

theorem allVals_cons (p e : Nat) (l : List (Nat × Nat)) :
    allVals ((p, e) :: l) =
      (List.range (e + 1)).flatMap fun c => (allVals l).map fun v => p ^ c * v := by
  unfold allVals
  simp only [List.map_cons, cartesianProduct, List.map_flatMap, List.map_map]
  congr 1

theorem prodPE_cons (p e : Nat) (l : List (Nat × Nat)) :
    prodPE ((p, e) :: l) = p ^ e * prodPE l := by
  simp [prodPE]

theorem prime_dvd_prodPE (q : Nat) (hq : q.Prime) (l : List (Nat × Nat))
    (hp : ∀ pe ∈ l, pe.1.Prime) (hdvd : q ∣ prodPE l) :
    ∃ pe ∈ l, q = pe.1 := by
  rw [prodPE] at hdvd
  obtain ⟨a, ha, hqa⟩ := (Prime.dvd_prod_iff hq.prime).1 hdvd
  rw [List.mem_map] at ha
  obtain ⟨pe, hpe, rfl⟩ := ha
  exact ⟨pe, hpe,
    (Nat.prime_dvd_prime_iff_eq hq (hp pe hpe)).1 (hq.dvd_of_dvd_pow hqa)⟩

/-- The unsorted candidate list built by `factors` contains exactly the
positive divisors of the reconstructed product. -/
theorem mem_allVals : ∀ (l : List (Nat × Nat)), (∀ pe ∈ l, pe.1.Prime) →
    ∀ d, (d ∈ allVals l ↔ (0 < d ∧ d ∣ prodPE l)) := by
  intro l
  induction l with
  | nil =>
    intro _ d
    rw [allVals_nil]
    show d ∈ [1] ↔ _
    simp only [List.mem_singleton, prodPE, List.map_nil, List.prod_nil,
      Nat.dvd_one]
    constructor
    · rintro rfl; exact ⟨one_pos, rfl⟩
    · rintro ⟨_, rfl⟩; rfl
  | cons pe l ih =>
    obtain ⟨p, e⟩ := pe
    intro hp d
    have hpp : p.Prime := hp (p, e) (List.mem_cons_self _ _)
    have hpl : ∀ x ∈ l, x.1.Prime := fun x hx => hp x (List.mem_cons_of_mem _ hx)
    rw [allVals_cons, prodPE_cons]
    constructor
    · intro hd
      rw [List.mem_flatMap] at hd
      obtain ⟨c, hc, hd⟩ := hd
      rw [List.mem_map] at hd
      obtain ⟨v, hv, rfl⟩ := hd
      rw [List.mem_range] at hc
      obtain ⟨hvpos, hvdvd⟩ := (ih hpl v).1 hv
      exact ⟨Nat.mul_pos (pow_pos hpp.pos c) hvpos,
        mul_dvd_mul (pow_dvd_pow p (by omega)) hvdvd⟩
    · rintro ⟨hdpos, hddvd⟩
      obtain ⟨d1, d2, hd1, hd2, rfl⟩ := exists_dvd_and_dvd_of_dvd_mul hddvd
      obtain ⟨c, hce, rfl⟩ := (Nat.dvd_prime_pow hpp).1 hd1
      rw [List.mem_flatMap]
      refine ⟨c, List.mem_range.2 (by omega), ?_⟩
      rw [List.mem_map]
      refine ⟨d2, (ih hpl d2).2 ⟨?_, hd2⟩, rfl⟩
      rcases Nat.eq_zero_or_pos d2 with rfl | hpos
      · simp at hdpos
      · exact hpos

/-- With distinct primes the candidate list has no duplicates. -/
theorem nodup_allVals : ∀ (l : List (Nat × Nat)), (∀ pe ∈ l, pe.1.Prime) →
    (l.map Prod.fst).Pairwise (· ≠ ·) → (allVals l).Nodup := by
  intro l
  induction l with
  | nil =>
    intro _ _
    rw [allVals_nil]
    exact List.nodup_singleton 1
  | cons pe l ih =>
    obtain ⟨p, e⟩ := pe
    intro hp hnd
    rw [List.map_cons, List.pairwise_cons] at hnd
    obtain ⟨hpne, hndl⟩ := hnd
    have hpp : p.Prime := hp (p, e) (List.mem_cons_self _ _)
    have hpl : ∀ x ∈ l, x.1.Prime := fun x hx => hp x (List.mem_cons_of_mem _ hx)
    have hpnd : ¬ p ∣ prodPE l := by
      intro hdvd
      obtain ⟨q, hq, hqe⟩ := prime_dvd_prodPE p hpp l hpl hdvd
      exact hpne q.1 (List.mem_map.2 ⟨q, hq, rfl⟩) hqe
    rw [allVals_cons, List.nodup_flatMap]
    constructor
    · intro c _
      exact (ih hpl hndl).map
        (fun a b hab => Nat.eq_of_mul_eq_mul_left (pow_pos hpp.pos c) hab)
    · refine (List.pairwise_lt_range _).imp ?_
      intro a b hab v hv1 hv2
      rw [List.mem_map] at hv1 hv2
      obtain ⟨x, hx, hxe⟩ := hv1
      obtain ⟨y, hy, hye⟩ := hv2
      have hxd : 0 < x ∧ x ∣ prodPE l := (mem_allVals l hpl x).1 hx
      have hyd : 0 < y ∧ y ∣ prodPE l := (mem_allVals l hpl y).1 hy
      have heq : p ^ a * x = p ^ b * y := hxe.trans hye.symm
      have hsplit : p ^ b = p ^ a * p ^ (b - a) := by
        rw [← pow_add]
        congr 1
        omega
      rw [hsplit, mul_assoc] at heq
      have hx2 : x = p ^ (b - a) * y :=
        Nat.eq_of_mul_eq_mul_left (pow_pos hpp.pos a) heq
      have hpx : p ∣ x := by
        rw [hx2]
        exact Dvd.dvd.mul_right
          (dvd_pow_self p (by omega : b - a ≠ 0)) y
      exact hpnd (dvd_trans hpx hxd.2)

/-- The candidate list has exactly `∏ (e + 1)` entries. -/
theorem length_allVals : ∀ l : List (Nat × Nat),
    (allVals l).length = (l.map fun pe => pe.2 + 1).prod := by
  intro l
  induction l with
  | nil => rfl
  | cons pe l ih =>
    obtain ⟨p, e⟩ := pe
    rw [allVals_cons, List.length_flatMap]
    have hmap : List.map (List.length ∘ fun c => (allVals l).map fun v => p ^ c * v)
        (List.range (e + 1)) =
        List.map (fun _ => (allVals l).length) (List.range (e + 1)) := by
      apply List.map_congr_left
      intro c _
      simp
    rw [hmap, List.map_const', List.sum_const_nat, List.length_range, ih,
      List.map_cons, List.prod_cons]

/-- The divisor list returned by `factors` on inputs of absolute value at
least 2: defined, strictly ascending, containing exactly the positive
divisors of `|n|`, of length `∏ (e + 1)`. -/
theorem factors_props (n : Int) (h : 1 < n.natAbs) :
    ∃ L, factors n = some L ∧ L.Sorted (· < ·) ∧
      (∀ d, d ∈ L ↔ (0 < d ∧ d ∣ n.natAbs)) ∧
      L.length = ((factor n).map fun pe => pe.2 + 1).prod := by
  obtain ⟨hP1, hP2, hP3⟩ := factor_props n h
  have hprodPE : prodPE (factor n) = n.natAbs := hP3
  have hne : factor n ≠ [] := by
    intro h0
    rw [h0] at hprodPE
    have : prodPE ([] : List (Nat × Nat)) = 1 := rfl
    omega
  obtain ⟨pe0, fz, hfz⟩ := List.exists_cons_of_ne_nil hne
  have hfactors : factors n =
      some (List.insertionSort (· ≤ ·) (allVals (pe0 :: fz))) := by
    unfold factors
    rw [hfz]
    rfl
  rw [← hfz] at hfactors
  have hprime : ∀ pe ∈ factor n, pe.1.Prime := fun pe hpe => (hP1 pe hpe).1
  have hpairne : ((factor n).map Prod.fst).Pairwise (· ≠ ·) :=
    hP2.imp (fun hab => ne_of_lt hab)
  have hnodupv : (allVals (factor n)).Nodup := nodup_allVals _ hprime hpairne
  have hperm := List.perm_insertionSort (· ≤ ·) (allVals (factor n))
  have hnodupL : (List.insertionSort (· ≤ ·) (allVals (factor n))).Nodup :=
    hperm.nodup_iff.2 hnodupv
  have hsortedle : (List.insertionSort (· ≤ ·) (allVals (factor n))).Sorted (· ≤ ·) :=
    List.sorted_insertionSort (· ≤ ·) (allVals (factor n))
  refine ⟨_, hfactors, ?_, ?_, ?_⟩
  · exact (hsortedle.and hnodupL).imp fun hab => lt_of_le_of_ne hab.1 hab.2
  · intro d
    rw [hperm.mem_iff, mem_allVals _ hprime d, hprodPE]
  · rw [hperm.length_eq, length_allVals]

/-- C6: for `|n| > 1`, `factors n` returns the strictly ascending list of
exactly the positive divisors of `|n|`, whose length is the product of
`exponent + 1` over `factor n`. -/
theorem factors_enumerates_divisors (n : Int) (h : 1 < n.natAbs) :
    ∃ L, factors n = some L ∧ L.Sorted (· < ·) ∧
      (∀ d, d ∈ L ↔ (0 < d ∧ d ∣ n.natAbs)) ∧
      L.length = ((factor n).map fun pe => pe.2 + 1).prod :=
  factors_props n h

/-- C6 witness: the theorem instantiated at the spec's example `n = 6`. -/
theorem factors_enumerates_divisors_witness :
    1 < ((6 : Int)).natAbs ∧
      ∃ L, factors 6 = some L ∧ L.Sorted (· < ·) ∧
        (∀ d, d ∈ L ↔ (0 < d ∧ d ∣ ((6 : Int)).natAbs)) ∧
        L.length = ((factor 6).map fun pe => pe.2 + 1).prod :=
  ⟨by decide, factors_enumerates_divisors 6 (by decide)⟩

/-- C7 counterexample: at `val = 1` (a positive integer) the claim requires
the divisor sum `fun1 1 * fun2 1 = 2`, but the code propagates the
`ValueError` raised by `factors 1` (modelled by `none`). -/
theorem convolution_coeff_val_one_counterexample :
    convolution_coeff 1 (fun d => 2 * (d : Int)) (fun _ => 1) = none ∧
      (none : Option Int) ≠ some 2 := by
  exact ⟨rfl, by simp⟩

/-- C7 amended: for every integer `val ≥ 2` and arithmetic functions
`fun1, fun2`, `convolution_coeff` returns the Dirichlet convolution
`∑ d ∣ val, fun1 d * fun2 (val / d)` (the sum is accumulated over the
divisors in ascending order; addition of integers is commutative, so the sum
is stated over the divisor set). -/
theorem convolution_coeff_amended (val : Int) (fun1 fun2 : Nat → Int)
    (h : 2 ≤ val) :
    convolution_coeff val fun1 fun2 =
      some (∑ d ∈ (val.toNat).divisors, fun1 d * fun2 (val.toNat / d)) := by
  have habs : val.natAbs = val.toNat := by omega
  obtain ⟨L, hL, hsort, hmem, hlen⟩ := factors_props val (by omega)
  have hnodup : L.Nodup := (hsort.imp fun hab => ne_of_lt hab)
  have hfin : L.toFinset = (val.toNat).divisors := by
    ext d
    rw [List.mem_toFinset, hmem d, Nat.mem_divisors]
    constructor
    · rintro ⟨hd, hdvd⟩
      exact ⟨habs ▸ hdvd, by omega⟩
    · rintro ⟨hdvd, hne⟩
      refine ⟨?_, habs ▸ hdvd⟩
      rcases Nat.eq_zero_or_pos d with rfl | hp
      · rw [zero_dvd_iff] at hdvd
        omega
      · exact hp
  rw [convolution_coeff, hL, Option.map_some', habs, ← hfin,
    List.sum_toFinset _ hnodup]

/-- C7 amended witness: the theorem instantiated at the spec's example
`convolution_coeff 6 (fun x => 2 * x) (fun _ => 1) = 24`. -/
theorem convolution_coeff_amended_witness :
    2 ≤ (6 : Int) ∧
      convolution_coeff 6 (fun d => 2 * (d : Int)) (fun _ => 1) = some 24 := by
  refine ⟨by decide, ?_⟩
  rw [convolution_coeff_amended 6 (fun d => 2 * (d : Int)) (fun _ => 1)
    (by decide)]
  decide


end pynt
